import Mathlib

/-!
# Verification of `find-duplicates` (`internal/dupfind/dupfinder.go`)

A shallow embedding of the duplicate-file-finding pipeline from
`internal/dupfind/dupfinder.go`.  The concurrent pipeline is modelled
sequentially: each stage is a pure function from its input stream (a list)
to its output stream, and the statistics counters are modelled as a list of
deltas emitted in program order.  The 128-bit xxh3 fingerprint is abstract:
every definition that hashes file contents is parameterised by a hash
function `H : List Nat → Uint128`, matching the spec's treatment of the
hash as "an abstract 128-bit content fingerprint".

File paths and file contents are byte strings, modelled as `List Nat`
(each element a byte value); Go's byte-wise lexicographic `string` order is
`lexLe` below.
-/

namespace DupFind

/-- A file path or file content: a sequence of byte values. -/
abbrev Path := List Nat

/-- Go's byte-wise lexicographic comparison `a <= b` on strings. -/
def lexLe : Path → Path → Bool
  | [], _ => true
  | _ :: _, [] => false
  | a :: as, b :: bs =>
    if a < b then true
    else if b < a then false
    else lexLe as bs

/-- The `<=` relation on paths induced by `lexLe`. -/
def pathLe (a b : Path) : Prop := lexLe a b = true

instance : DecidableRel pathLe := fun a b => by
  unfold pathLe; infer_instance

/-- An `xxh3.Uint128`: a 128-bit value with a high and a low 64-bit half. -/
structure Uint128 where
  hi : Nat
  lo : Nat
  deriving DecidableEq, Repr

/-- A `pathWithSize`: a path to a regular file and its size
(`size int64` in Go). -/
structure PathWithSize where
  path : Path
  size : Int
  deriving DecidableEq, Repr

/-- A `pathWithHash`: a path to a regular file and its hash. -/
structure PathWithHash where
  path : Path
  hash : Uint128
  deriving DecidableEq, Repr

/-- The statistics counters of `DupFinder.statistics`, also used as a
single delta (one batch of atomic `Add` calls). -/
structure Stats where
  errors : Nat := 0
  dirEntries : Nat := 0
  files : Nat := 0
  filesOpened : Nat := 0
  totalBytes : Nat := 0
  bytesHashed : Nat := 0
  uniqueSizes : Nat := 0
  deriving DecidableEq, Repr

/-- Componentwise sum of two statistics records. -/
def Stats.add (a b : Stats) : Stats :=
  ⟨a.errors + b.errors, a.dirEntries + b.dirEntries, a.files + b.files,
   a.filesOpened + b.filesOpened, a.totalBytes + b.totalBytes,
   a.bytesHashed + b.bytesHashed, a.uniqueSizes + b.uniqueSizes⟩

/-- The all-zero statistics record. -/
def Stats.zero : Stats := {}

/-- Sum of a list of statistics deltas. -/
def sumStats : List Stats → Stats
  | [] => Stats.zero
  | d :: ds => d.add (sumStats ds)

/-- Componentwise `≤` on statistics records. -/
def Stats.le (a b : Stats) : Prop :=
  a.errors ≤ b.errors ∧ a.dirEntries ≤ b.dirEntries ∧ a.files ≤ b.files ∧
  a.filesOpened ≤ b.filesOpened ∧ a.totalBytes ≤ b.totalBytes ∧
  a.bytesHashed ≤ b.bytesHashed ∧ a.uniqueSizes ≤ b.uniqueSizes

instance : DecidablePred (fun p : Stats × Stats => p.1.le p.2) := fun _ => by
  unfold Stats.le; infer_instance

instance (a b : Stats) : Decidable (a.le b) := by
  unfold Stats.le; infer_instance

/-- The statistics value after the first `k` deltas of a run's trace. -/
def statsAt (ds : List Stats) (k : Nat) : Stats := sumStats (ds.take k)

/-! ## Hex encoding (`encoding/hex.EncodeToString` over `xxh3.Uint128.Bytes`) -/

/-- One digit of Go's hex alphabet `0123456789abcdef`. -/
def hexDigit (n : Nat) : Char :=
  if n < 10 then Char.ofNat (48 + n) else Char.ofNat (87 + n)

/-- The eight bytes of a 64-bit value, big-endian
(`binary.BigEndian.PutUint64`). -/
def bytesBE8 (n : Nat) : List Nat :=
  [n / 2 ^ 56 % 256, n / 2 ^ 48 % 256, n / 2 ^ 40 % 256, n / 2 ^ 32 % 256,
   n / 2 ^ 24 % 256, n / 2 ^ 16 % 256, n / 2 ^ 8 % 256, n % 256]

/-- `xxh3.Uint128.Bytes`: the sixteen bytes of the 128-bit value,
big-endian, high half first. -/
def uint128Bytes (u : Uint128) : List Nat :=
  bytesBE8 u.hi ++ bytesBE8 u.lo

/-- `hex.EncodeToString`: each byte becomes two lowercase hex digits,
high nibble first. -/
def hexEncode (bs : List Nat) : String :=
  String.mk (bs.flatMap fun b => [hexDigit (b / 16), hexDigit (b % 16)])

/-- The key of a result group: the hex encoding of the group's
fingerprint (`hex.EncodeToString(bytes[:])`). -/
def uint128Hex (u : Uint128) : String := hexEncode (uint128Bytes u)

/-! ## Deduper (`findUniquePathsWithSize`) -/

/-- The loop of `findUniquePathsWithSize`: `seen` models the `allPaths`
set; a `pathWithSize` is forwarded on first observation and every later
occurrence is dropped. -/
def dedupGo (seen : List PathWithSize) : List PathWithSize → List PathWithSize
  | [] => []
  | p :: ps => if p ∈ seen then dedupGo seen ps else p :: dedupGo (p :: seen) ps

/-- `findUniquePathsWithSize`: the output stream of the Deduper stage. -/
def findUniquePathsWithSize (l : List PathWithSize) : List PathWithSize :=
  dedupGo [] l

/-- The `allPaths` set (as a list) after the Deduper has consumed `l`,
starting from `seen`. -/
def dedupSeenAfter (seen : List PathWithSize) : List PathWithSize → List PathWithSize
  | [] => seen
  | p :: ps => if p ∈ seen then dedupSeenAfter seen ps else dedupSeenAfter (p :: seen) ps

/-! ## Size-Filter (`findPathsWithIdenticalSizes`) -/

/-- One iteration of the `findPathsWithIdenticalSizes` loop: append the
entry to its size bucket, then flush the whole bucket when its length
first equals `threshold`, forward just the entry when the bucket is
already past the threshold, and forward nothing otherwise.  Returns the
updated bucket map and the entries sent to `pathsToHashCh`. -/
def sizeFilterStep (threshold : Int) (buckets : Int → List PathWithSize)
    (p : PathWithSize) : (Int → List PathWithSize) × List PathWithSize :=
  let b := buckets p.size ++ [p]
  let buckets' := fun s => if s = p.size then b else buckets s
  let out :=
    if (b.length : Int) = threshold then b
    else if threshold < (b.length : Int) then [p]
    else []
  (buckets', out)

/-- The loop of `findPathsWithIdenticalSizes` over the remaining input,
given the current bucket map (`allPathsBySize`). -/
def sizeFilterGo (threshold : Int) (buckets : Int → List PathWithSize) :
    List PathWithSize → List PathWithSize
  | [] => []
  | p :: ps =>
    let st := sizeFilterStep threshold buckets p
    st.2 ++ sizeFilterGo threshold st.1 ps

/-- `findPathsWithIdenticalSizes`: the output stream of the Size-Filter
stage. -/
def findPathsWithIdenticalSizes (threshold : Int) (l : List PathWithSize) :
    List PathWithSize :=
  sizeFilterGo threshold (fun _ => []) l

/-- The number of distinct sizes seen by the Size-Filter
(`len(allPathsBySize)`, recorded into `uniqueSizes` when the upstream
closes). -/
def uniqueSizeCount (l : List PathWithSize) : Nat :=
  ((l.map PathWithSize.size).dedup).length

/-! ## Hasher pool (`hashPath`, `hashPaths`)

The filesystem seen by the hasher is `fsys : Path → Option (List Nat)`:
`none` models an `open` (or read) failure, `some c` a successful
single-pass read of the byte content `c`. -/

/-- `emptyHash`: the hash of the empty file (`xxh3.New().Sum128()`). -/
def emptyHash (H : List Nat → Uint128) : Uint128 := H []

/-- `hashPath`: a size-0 entry yields `emptyHash` without touching the
file; otherwise `filesOpened` is incremented, the file is opened and
streamed, and `bytesHashed` accumulates the bytes read on success.
Returns the result and the statistics deltas in program order. -/
def hashPath (H : List Nat → Uint128) (fsys : Path → Option (List Nat))
    (p : PathWithSize) : Except Unit Uint128 × List Stats :=
  if p.size = 0 then (.ok (emptyHash H), [])
  else
    match fsys p.path with
    | none => (.error (), [{ filesOpened := 1 }])
    | some c => (.ok (H c), [{ filesOpened := 1 }, { bytesHashed := c.length }])

/-- `hashPaths`: hash every entry; a failed entry contributes one error
(counted by the supervisor into `errors`) and no output, a successful
entry contributes exactly one `pathWithHash`. -/
def hashPaths (H : List Nat → Uint128) (fsys : Path → Option (List Nat)) :
    List PathWithSize → List PathWithHash × List Stats
  | [] => ([], [])
  | p :: ps =>
    let r := hashPath H fsys p
    let rest := hashPaths H fsys ps
    match r.1 with
    | .error _ => (rest.1, r.2 ++ { errors := 1 } :: rest.2)
    | .ok h => (⟨p.path, h⟩ :: rest.1, r.2 ++ rest.2)

/-! ## Walker (`concurrentWalkDir`, `findRegularFiles`)

A directory tree is modelled in memory.  A `file` node is a regular file
with its byte content and a flag saying whether `dirEntry.Info()` fails;
a `dir` node has a flag saying whether `os.ReadDir` fails on it, plus
its named entries; `other` is a non-regular non-directory entry
(symlink, socket, device, ...). -/

mutual

inductive DirTree where
  | file (content : List Nat) (statErr : Bool)
  | dir (readErr : Bool) (entries : EntryList)
  | other

inductive EntryList where
  | nil
  | cons (name : Path) (t : DirTree) (rest : EntryList)

end

/-- The number of entries of a directory (`len(dirEntries)`). -/
def EntryList.count : EntryList → Nat
  | .nil => 0
  | .cons _ _ rest => rest.count + 1

/-- The number of regular-file entries of a directory
(`dirEntry.Type().IsRegular()`). -/
def EntryList.regularCount : EntryList → Nat
  | .nil => 0
  | .cons _ (.file _ _) rest => rest.regularCount + 1
  | .cons _ (.dir _ _) rest => rest.regularCount
  | .cons _ .other rest => rest.regularCount

/-- `filepath.Join(root, name)`: the byte 47 is `/`. -/
def joinPath (p n : Path) : Path := p ++ 47 :: n

/-- The outcome of a walk: the `pathWithSize` stream sent to
`regularFilesCh` and the statistics deltas in program order. -/
structure WalkResult where
  out : List PathWithSize
  deltas : List Stats
  deriving DecidableEq, Repr

mutual

/-- `concurrentWalkDir` composed with the `walkDirFunc` of
`findRegularFiles`: read the directory (an unreadable root or non-dir
root sends one error), count its entries into `dirEntries` and its
regular files into `files`, then process the entries in order. -/
def walk (p : Path) : DirTree → WalkResult
  | .file _ _ => ⟨[], [{ errors := 1 }]⟩
  | .other => ⟨[], [{ errors := 1 }]⟩
  | .dir true _ => ⟨[], [{ errors := 1 }]⟩
  | .dir false entries =>
    let r := walkEntries p entries
    ⟨r.out, { dirEntries := entries.count, files := entries.regularCount } :: r.deltas⟩

/-- The per-entry loop of `concurrentWalkDir`: a regular file whose
`Info` succeeds is emitted (adding its size to `totalBytes`); a regular
file whose `Info` fails sends one error and makes the loop return,
dropping the remaining entries of this directory; a subdirectory is
walked recursively; other entry types are skipped. -/
def walkEntries (p : Path) : EntryList → WalkResult
  | .nil => ⟨[], []⟩
  | .cons n t rest =>
    match t with
    | .file c statErr =>
      if statErr then ⟨[], [{ errors := 1 }]⟩
      else
        let r := walkEntries p rest
        ⟨⟨joinPath p n, (c.length : Int)⟩ :: r.out, { totalBytes := c.length } :: r.deltas⟩
    | .dir _ _ =>
      let a := walk (joinPath p n) t
      let r := walkEntries p rest
      ⟨a.out ++ r.out, a.deltas ++ r.deltas⟩
    | .other => walkEntries p rest

end

/-- `findRegularFiles` over all roots (the per-root goroutines of
`FindDuplicates`, sequentialised in root order). -/
def walkAll : List (Path × DirTree) → WalkResult
  | [] => ⟨[], []⟩
  | r :: rs =>
    let a := walk r.1 r.2
    let b := walkAll rs
    ⟨a.out ++ b.out, a.deltas ++ b.deltas⟩

/-! ## Aggregator and supervisor (`FindDuplicates`) -/

/-- Append a path to the group of a hash in the accumulating
`pathsByHash` association (Go: `pathsByHash[h] = append(pathsByHash[h], path)`). -/
def addToGroup : List (Uint128 × List Path) → Uint128 → Path → List (Uint128 × List Path)
  | [], h, q => [(h, [q])]
  | (h', ps) :: rest, h, q =>
    if h' = h then (h', ps ++ [q]) :: rest else (h', ps) :: addToGroup rest h q

/-- The accumulation loop of the aggregator goroutine. -/
def groupByHashGo (acc : List (Uint128 × List Path)) :
    List PathWithHash → List (Uint128 × List Path)
  | [] => acc
  | q :: qs => groupByHashGo (addToGroup acc q.hash q.path) qs

/-- `pathsByHash` after the upstream closes: paths grouped by hash, each
group in arrival order. -/
def groupByHash (l : List PathWithHash) : List (Uint128 × List Path) :=
  groupByHashGo [] l

/-- `slices.Sort(paths)`: sort a group's paths in byte-wise lexicographic
order. -/
def sortPaths (ps : List Path) : List Path := List.insertionSort pathLe ps

/-- The final loop of `FindDuplicates`'s aggregator goroutine: keep the
groups with at least `threshold` members, sort each kept group, and key
it by the hex encoding of its fingerprint. -/
def aggregate (t : Int) (l : List PathWithHash) : List (String × List Path) :=
  (groupByHash l).filterMap fun g =>
    if t ≤ (g.2.length : Int) then some (uint128Hex g.1, sortPaths g.2) else none

/-- The statistics deltas of a whole run, in pipeline order: walker
deltas, then the Size-Filter's final `uniqueSizes` record, then the
hasher deltas. -/
def runDeltas (H : List Nat → Uint128) (fsys : Path → Option (List Nat))
    (t : Int) (roots : List (Path × DirTree)) : List Stats :=
  let w := walkAll roots
  let u := findUniquePathsWithSize w.out
  let sf := findPathsWithIdenticalSizes t u
  w.deltas ++ { uniqueSizes := uniqueSizeCount u } :: (hashPaths H fsys sf).2

/-- `DupFinder.FindDuplicates`, sequentialised: walk the roots, dedup,
size-filter, hash, aggregate.  With the default fail-fast error handler
(`keepGoing = false`) any error aborts with a nil map; under keep-going
the aggregated result is returned. -/
def findDuplicatesModel (H : List Nat → Uint128) (fsys : Path → Option (List Nat))
    (keepGoing : Bool) (t : Int) (roots : List (Path × DirTree)) :
    Except Unit (List (String × List Path)) :=
  let w := walkAll roots
  let u := findUniquePathsWithSize w.out
  let sf := findPathsWithIdenticalSizes t u
  let h := hashPaths H fsys sf
  if keepGoing = false ∧ 0 < (sumStats (w.deltas ++ h.2)).errors then .error ()
  else .ok (aggregate t h.1)

/-! ## Statistics lemmas -/

theorem sumStats_append (a b : List Stats) :
    sumStats (a ++ b) = (sumStats a).add (sumStats b) := by
  induction a with
  | nil =>
    simp only [List.nil_append, sumStats, Stats.add, Stats.zero]
    cases sumStats b
    simp
  | cons d ds ih =>
    simp only [List.cons_append, sumStats]
    have ih' : sumStats (ds.append b) = (sumStats ds).add (sumStats b) := ih
    rw [ih']
    cases d; cases sumStats ds; cases sumStats b
    simp only [Stats.add, Stats.mk.injEq]
    omega

theorem Stats.le_add_right (a b : Stats) : a.le (a.add b) := by
  cases a; cases b
  simp only [Stats.le, Stats.add]
  omega

theorem statsAt_mono (ds : List Stats) (i j : Nat) (hij : i ≤ j) :
    (statsAt ds i).le (statsAt ds j) := by
  unfold statsAt
  have h1 : ds.take i = (ds.take j).take i := by
    rw [List.take_take, Nat.min_eq_left hij]
  have h2 : ds.take j = ds.take i ++ ((ds.take j).drop i) := by
    rw [h1, List.take_append_drop]
  rw [h2, sumStats_append, h1]
  exact Stats.le_add_right _ _

/-! ## Byte-lexicographic order lemmas -/

theorem lexLe_total (a b : Path) : lexLe a b = true ∨ lexLe b a = true := by
  induction a generalizing b with
  | nil => left; rfl
  | cons x xs ih =>
    cases b with
    | nil => right; rfl
    | cons y ys =>
      by_cases hxy : x < y
      · left; simp [lexLe, hxy]
      · by_cases hyx : y < x
        · right; simp [lexLe, hyx]
        · have hxy' : ¬y < x := hyx
          have h := ih ys
          rcases h with h | h
          · left; simp [lexLe, hxy, hyx, h]
          · right
            simp only [lexLe]
            rw [if_neg hyx, if_neg hxy]
            exact h

theorem lexLe_trans (a b c : Path) (hab : lexLe a b = true) (hbc : lexLe b c = true) :
    lexLe a c = true := by
  induction a generalizing b c with
  | nil => rfl
  | cons x xs ih =>
    cases b with
    | nil => simp [lexLe] at hab
    | cons y ys =>
      cases c with
      | nil => simp [lexLe] at hbc
      | cons z zs =>
        simp only [lexLe] at hab hbc ⊢
        by_cases hxy : x < y <;> by_cases hyx : y < x <;>
          by_cases hyz : y < z <;> by_cases hzy : z < y <;>
          by_cases hxz : x < z <;> by_cases hzx : z < x <;>
          simp only [hxy, hyx, hyz, hzy, hxz, hzx, if_true, if_false,
            if_pos, if_neg, ite_true, ite_false, eq_self_iff_true] at hab hbc ⊢ <;>
          first
            | rfl
            | omega
            | (exact ih ys zs hab hbc)
            | (exact Bool.noConfusion hab)
            | (exact Bool.noConfusion hbc)

instance : IsTotal Path pathLe :=
  ⟨fun a b => lexLe_total a b⟩

instance : IsTrans Path pathLe :=
  ⟨fun a b c => lexLe_trans a b c⟩

/-! ## Hex encoding lemmas -/

/-- The characters of Go's hex alphabet. -/
def hexChars : List Char := "0123456789abcdef".data

theorem hexDigit_mem (m : Nat) (hm : m < 16) : hexDigit m ∈ hexChars := by
  revert m
  decide

theorem hexEncode_length (bs : List Nat) : (hexEncode bs).length = 2 * bs.length := by
  unfold hexEncode
  induction bs with
  | nil => rfl
  | cons b rest ih =>
    simp only [List.flatMap_cons] at *
    simp only [String.length, List.length_append, List.length_cons, List.length_nil] at *
    omega

theorem hexEncode_chars (bs : List Nat) (hbs : ∀ b ∈ bs, b < 256) :
    ∀ c ∈ (hexEncode bs).data, c ∈ hexChars := by
  unfold hexEncode
  induction bs with
  | nil => intro c hc; simp at hc
  | cons b rest ih =>
    intro c hc
    simp only [List.flatMap_cons] at hc
    have hb : b < 256 := hbs b (List.mem_cons_self b rest)
    simp only [List.cons_append, List.nil_append, List.mem_cons] at hc
    rcases hc with hc | hc | hc
    · subst hc; exact hexDigit_mem _ (by omega)
    · subst hc; exact hexDigit_mem _ (by omega)
    · exact ih (fun x hx => hbs x (List.mem_cons_of_mem b hx)) c hc

theorem uint128Bytes_lt (u : Uint128) : ∀ b ∈ uint128Bytes u, b < 256 := by
  intro b hb
  simp only [uint128Bytes, bytesBE8, List.mem_append, List.mem_cons,
    List.not_mem_nil, or_false] at hb
  rcases hb with hb | hb <;> rcases hb with h | h | h | h | h | h | h | h <;>
    subst h <;> omega

theorem uint128Hex_length (u : Uint128) : (uint128Hex u).length = 32 := by
  unfold uint128Hex
  rw [hexEncode_length]
  rfl

theorem uint128Hex_chars (u : Uint128) :
    ∀ c ∈ (uint128Hex u).data, c ∈ hexChars :=
  hexEncode_chars _ (uint128Bytes_lt u)

/-! ## Deduper lemmas -/

theorem mem_dedupSeenAfter (s l : List PathWithSize) (x : PathWithSize) :
    x ∈ dedupSeenAfter s l ↔ x ∈ s ∨ x ∈ l := by
  induction l generalizing s with
  | nil => simp [dedupSeenAfter]
  | cons p ps ih =>
    simp only [dedupSeenAfter]
    by_cases hp : p ∈ s
    · rw [if_pos hp, ih]
      simp only [List.mem_cons]
      constructor
      · rintro (h | h)
        · exact Or.inl h
        · exact Or.inr (Or.inr h)
      · rintro (h | h | h)
        · exact Or.inl h
        · subst h; exact Or.inl hp
        · exact Or.inr h
    · rw [if_neg hp, ih]
      simp only [List.mem_cons]
      tauto

theorem dedupGo_append (s a b : List PathWithSize) :
    dedupGo s (a ++ b) = dedupGo s a ++ dedupGo (dedupSeenAfter s a) b := by
  induction a generalizing s with
  | nil => simp [dedupGo, dedupSeenAfter]
  | cons p ps ih =>
    simp only [List.cons_append, dedupGo, dedupSeenAfter]
    by_cases hp : p ∈ s
    · rw [if_pos hp, if_pos hp, if_pos hp]
      exact ih s
    · rw [if_neg hp, if_neg hp, if_neg hp, List.cons_append]
      exact congrArg (p :: ·) (ih (p :: s))

theorem dedupGo_eq_nil (s l : List PathWithSize) (h : ∀ x ∈ l, x ∈ s) :
    dedupGo s l = [] := by
  induction l with
  | nil => rfl
  | cons p ps ih =>
    simp only [dedupGo]
    rw [if_pos (h p (List.mem_cons_self p ps))]
    exact ih fun x hx => h x (List.mem_cons_of_mem p hx)

theorem findUnique_self_append (l : List PathWithSize) :
    findUniquePathsWithSize (l ++ l) = findUniquePathsWithSize l := by
  unfold findUniquePathsWithSize
  rw [dedupGo_append]
  have h : dedupGo (dedupSeenAfter [] l) l = [] :=
    dedupGo_eq_nil _ _ fun x hx => (mem_dedupSeenAfter _ _ _).mpr (Or.inr hx)
  rw [h, List.append_nil]

theorem dedupGo_sublist (s l : List PathWithSize) :
    List.Sublist (dedupGo s l) l := by
  induction l generalizing s with
  | nil => exact List.Sublist.refl []
  | cons p ps ih =>
    simp only [dedupGo]
    by_cases hp : p ∈ s
    · rw [if_pos hp]
      exact (ih s).trans (List.sublist_cons_self p ps)
    · rw [if_neg hp]
      exact (ih (p :: s)).cons₂ p

/-! ## Size-Filter: degenerate thresholds -/

theorem sizeFilterGo_nonpos (t : Int) (ht : t ≤ 0)
    (buckets : Int → List PathWithSize) (l : List PathWithSize) :
    sizeFilterGo t buckets l = l := by
  induction l generalizing buckets with
  | nil => rfl
  | cons p ps ih =>
    simp only [sizeFilterGo, sizeFilterStep]
    have hlen : (0 : Int) < ((buckets p.size ++ [p]).length : Int) := by
      simp only [List.length_append, List.length_cons, List.length_nil]
      push_cast
      omega
    rw [if_neg (by omega), if_pos (by omega)]
    simp [ih]

theorem sizeFilterGo_one (buckets : Int → List PathWithSize)
    (l : List PathWithSize) : sizeFilterGo 1 buckets l = l := by
  induction l generalizing buckets with
  | nil => rfl
  | cons p ps ih =>
    simp only [sizeFilterGo, sizeFilterStep]
    by_cases hb : buckets p.size = []
    · rw [hb]
      simp only [List.nil_append, List.length_cons, List.length_nil]
      rw [if_pos (by norm_num)]
      simp [ih]
    · have hlen : 2 ≤ (buckets p.size ++ [p]).length := by
        simp only [List.length_append, List.length_cons, List.length_nil]
        have := List.length_pos.mpr hb
        omega
      rw [if_neg (by omega), if_pos (by omega)]
      simp [ih]

/-! ## Size-Filter: per-size characterization -/

/-- The entries of `l` whose size is `s`, in order. -/
def filterSize (s : Int) (l : List PathWithSize) : List PathWithSize :=
  l.filter fun q => q.size == s

/-- The bucket map of the Size-Filter after it has consumed `pre`. -/
def bucketsOf (pre : List PathWithSize) : Int → List PathWithSize :=
  fun s => filterSize s pre

theorem filterSize_append (s : Int) (a b : List PathWithSize) :
    filterSize s (a ++ b) = filterSize s a ++ filterSize s b := by
  simp [filterSize]

theorem filterSize_singleton_eq (s : Int) (p : PathWithSize) (h : p.size = s) :
    filterSize s [p] = [p] := by
  simp [filterSize, h]

theorem filterSize_singleton_ne (s : Int) (p : PathWithSize) (h : ¬p.size = s) :
    filterSize s [p] = [] := by
  simp [filterSize, h]

theorem filterSize_self (s : Int) (l : List PathWithSize) :
    filterSize s (filterSize s l) = filterSize s l := by
  simp [filterSize, List.filter_filter]

theorem filterSize_other (s s' : Int) (l : List PathWithSize) (h : ¬s' = s) :
    filterSize s (filterSize s' l) = [] := by
  induction l with
  | nil => rfl
  | cons p ps ih =>
    by_cases hp : p.size = s'
    · simp only [filterSize, List.filter_cons] at *
      have h1 : (p.size == s') = true := by simp [hp]
      have h2 : (p.size == s) = false := by simp [hp, h]
      rw [h1] at *
      simp only [if_true, List.filter_cons, h2] at *
      simpa using ih
    · simp only [filterSize, List.filter_cons] at *
      have h1 : (p.size == s') = false := by simp [hp]
      rw [h1] at *
      simpa using ih

theorem filterSize_cons_self (p : PathWithSize) (ps : List PathWithSize) :
    filterSize p.size (p :: ps) = p :: filterSize p.size ps := by
  simp [filterSize]

theorem bucketsOf_step (pre : List PathWithSize) (p : PathWithSize) :
    (fun s => if s = p.size then bucketsOf pre p.size ++ [p] else bucketsOf pre s)
      = bucketsOf (pre ++ [p]) := by
  funext s'
  by_cases h : s' = p.size
  · rw [if_pos h]
    simp only [bucketsOf, filterSize_append]
    rw [h, filterSize_singleton_eq _ _ rfl]
  · rw [if_neg h]
    simp only [bucketsOf, filterSize_append]
    rw [filterSize_singleton_ne _ _ (by omega), List.append_nil]

theorem sizeFilterGo_char (t s : Int) (l : List PathWithSize) :
    ∀ pre : List PathWithSize,
    filterSize s (sizeFilterGo t (bucketsOf pre) l)
    = if t ≤ ((filterSize s pre).length : Int) then filterSize s l
      else if t ≤ ((filterSize s pre).length : Int) + ((filterSize s l).length : Int)
        then filterSize s pre ++ filterSize s l
        else [] := by
  induction l with
  | nil =>
    intro pre
    show filterSize s [] = _
    have hnil : filterSize s ([] : List PathWithSize) = [] := rfl
    rw [hnil]
    by_cases h1 : t ≤ ((filterSize s pre).length : Int)
    · rw [if_pos h1]
    · rw [if_neg h1, if_neg (by simp only [List.length_nil]; omega)]
  | cons p ps ih =>
    intro pre
    simp only [sizeFilterGo, sizeFilterStep]
    rw [bucketsOf_step, filterSize_append, ih (pre ++ [p])]
    have hb : bucketsOf pre p.size = filterSize p.size pre := rfl
    rw [hb]
    by_cases hps : p.size = s
    · subst hps
      have hsingle : filterSize p.size [p] = [p] := filterSize_singleton_eq _ _ rfl
      simp only [filterSize_append, filterSize_self, hsingle, filterSize_cons_self,
        List.length_append, List.length_cons, List.length_nil, List.append_assoc,
        List.singleton_append]
      split_ifs <;>
        (try simp only [filterSize_append, filterSize_self, hsingle, filterSize_cons_self,
          List.append_assoc, List.singleton_append, List.append_nil, List.nil_append]) <;>
        first | rfl | (exfalso; omega)
    · have hother : filterSize s (filterSize p.size pre) = [] :=
        filterSize_other s p.size pre hps
      have hsingle : filterSize s [p] = [] := filterSize_singleton_ne _ _ hps
      have hcons : filterSize s (p :: ps) = filterSize s ps := by
        simp [filterSize, List.filter_cons, hps]
      simp only [filterSize_append, hother, hsingle, hcons, List.append_nil,
        List.nil_append, List.length_append, List.length_cons, List.length_nil]
      split_ifs <;>
        (try simp only [filterSize_append, hother, hsingle, hcons,
          List.append_nil, List.nil_append]) <;>
        rfl

theorem findPaths_filterSize (t s : Int) (l : List PathWithSize) :
    filterSize s (findPathsWithIdenticalSizes t l)
    = if t ≤ ((filterSize s l).length : Int) then filterSize s l else [] := by
  have h := sizeFilterGo_char t s l []
  have hnil : filterSize s ([] : List PathWithSize) = [] := rfl
  rw [hnil] at h
  simp only [List.length_nil, Nat.cast_zero, zero_add, List.nil_append] at h
  unfold findPathsWithIdenticalSizes
  have hb : (fun _ : Int => ([] : List PathWithSize)) = bucketsOf [] := rfl
  rw [hb, h]
  split_ifs <;> first | rfl | (exfalso; omega)

theorem count_findPaths_le (t : Int) (l : List PathWithSize) (x : PathWithSize) :
    (findPathsWithIdenticalSizes t l).count x ≤ l.count x := by
  have hself : (x.size == x.size) = true := by simp
  have h1 : (filterSize x.size (findPathsWithIdenticalSizes t l)).count x
      = (findPathsWithIdenticalSizes t l).count x := List.count_filter hself
  have h2 : (filterSize x.size l).count x = l.count x := List.count_filter hself
  rw [← h1, findPaths_filterSize]
  split_ifs
  · omega
  · simp

theorem findPaths_subperm (t : Int) (l : List PathWithSize) :
    List.Subperm (findPathsWithIdenticalSizes t l) l :=
  List.subperm_ext_iff.mpr fun x _ => count_findPaths_le t l x

theorem subperm_map_sum_le (f : PathWithSize → Nat) (a b : List PathWithSize)
    (h : List.Subperm a b) : (a.map f).sum ≤ (b.map f).sum := by
  obtain ⟨c, hperm, hsub⟩ := h
  calc (a.map f).sum = (c.map f).sum := ((hperm.map f).sum_eq).symm
    _ ≤ (b.map f).sum := (hsub.map f).sum_le_sum (by simp)

theorem sublist_map_sum_le (f : PathWithSize → Nat) (a b : List PathWithSize)
    (h : List.Sublist a b) : (a.map f).sum ≤ (b.map f).sum :=
  (h.map f).sum_le_sum (by simp)

/-! ## Statistics projection lemmas -/

theorem Stats.add_errors (a b : Stats) : (a.add b).errors = a.errors + b.errors := rfl

theorem Stats.add_dirEntries (a b : Stats) :
    (a.add b).dirEntries = a.dirEntries + b.dirEntries := rfl

theorem Stats.add_files (a b : Stats) : (a.add b).files = a.files + b.files := rfl

theorem Stats.add_filesOpened (a b : Stats) :
    (a.add b).filesOpened = a.filesOpened + b.filesOpened := rfl

theorem Stats.add_totalBytes (a b : Stats) :
    (a.add b).totalBytes = a.totalBytes + b.totalBytes := rfl

theorem Stats.add_bytesHashed (a b : Stats) :
    (a.add b).bytesHashed = a.bytesHashed + b.bytesHashed := rfl

/-! ## Hasher lemmas -/

/-- Whether the hasher drops an entry: `open` (or read) fails on a
non-empty file. -/
def hashFailed (H : List Nat → Uint128) (fsys : Path → Option (List Nat))
    (p : PathWithSize) : Bool :=
  match (hashPath H fsys p).1 with
  | .error _ => true
  | .ok _ => false

theorem hashPath_deltas_sum (H : List Nat → Uint128) (fsys : Path → Option (List Nat))
    (p : PathWithSize) :
    sumStats (hashPath H fsys p).2
      = if p.size = 0 then Stats.zero
        else match fsys p.path with
          | none => { filesOpened := 1 }
          | some c => { filesOpened := 1, bytesHashed := c.length } := by
  unfold hashPath
  split_ifs with h
  · rfl
  · cases fsys p.path <;> simp [sumStats, Stats.add, Stats.zero]

theorem hashPaths_characterization (H : List Nat → Uint128)
    (fsys : Path → Option (List Nat)) (l : List PathWithSize) :
    (hashPaths H fsys l).1 = (l.filterMap fun p =>
        match (hashPath H fsys p).1 with
        | .ok h => some ⟨p.path, h⟩
        | .error _ => none) ∧
    (sumStats (hashPaths H fsys l).2).errors = (l.filter (hashFailed H fsys)).length ∧
    (hashPaths H fsys l).1.length + (l.filter (hashFailed H fsys)).length = l.length := by
  induction l with
  | nil => exact ⟨rfl, rfl, rfl⟩
  | cons p ps ih =>
    obtain ⟨ih1, ih2, ih3⟩ := ih
    have herr : (sumStats (hashPath H fsys p).2).errors = 0 := by
      rw [hashPath_deltas_sum]
      split_ifs
      · rfl
      · cases fsys p.path <;> rfl
    rcases hp : hashPath H fsys p with ⟨r1, r2⟩
    rw [hp] at herr
    simp only [hashPaths, List.filterMap_cons, List.filter_cons, hashFailed, hp]
    cases r1 with
    | error e =>
      refine ⟨ih1, ?_, ?_⟩
      · rw [sumStats_append, Stats.add_errors, herr]
        simp only [sumStats, Stats.add_errors, ih2]
        simp
        omega
      · simp only [List.length_cons]
        simp
        omega
    | ok h =>
      refine ⟨by rw [ih1], ?_, ?_⟩
      · rw [sumStats_append, Stats.add_errors, herr, ih2]
        simp
      · simp only [List.length_cons]
        simp
        omega

theorem hashPaths_filesOpened_le (H : List Nat → Uint128)
    (fsys : Path → Option (List Nat)) (l : List PathWithSize) :
    (sumStats (hashPaths H fsys l).2).filesOpened ≤ l.length := by
  induction l with
  | nil => simp [hashPaths, sumStats, Stats.zero]
  | cons p ps ih =>
    have hopen : (sumStats (hashPath H fsys p).2).filesOpened ≤ 1 := by
      rw [hashPath_deltas_sum]
      split_ifs
      · exact Nat.zero_le 1
      · cases fsys p.path <;> exact Nat.le_refl 1
    rcases hp : hashPath H fsys p with ⟨r1, r2⟩
    rw [hp] at hopen
    have hopen2 : (sumStats r2).filesOpened ≤ 1 := hopen
    simp only [hashPaths, hp]
    cases r1 <;>
      · simp only [List.length_cons]
        rw [sumStats_append, Stats.add_filesOpened]
        try simp only [sumStats, Stats.add_filesOpened]
        omega

theorem hashPaths_bytesHashed_le (H : List Nat → Uint128)
    (fsys : Path → Option (List Nat)) (l : List PathWithSize)
    (hgood : ∀ p ∈ l, ∀ c, fsys p.path = some c → (c.length : Int) = p.size) :
    (sumStats (hashPaths H fsys l).2).bytesHashed
      ≤ (l.map fun p => p.size.toNat).sum := by
  induction l with
  | nil => simp [hashPaths, sumStats, Stats.zero]
  | cons p ps ih =>
    have hbytes : (sumStats (hashPath H fsys p).2).bytesHashed ≤ p.size.toNat := by
      rw [hashPath_deltas_sum]
      split_ifs
      · exact Nat.zero_le _
      · cases hc : fsys p.path with
        | none => exact Nat.zero_le _
        | some c =>
          have := hgood p (List.mem_cons_self p ps) c hc
          simp only
          omega
    have ih' := ih fun q hq c hc => hgood q (List.mem_cons_of_mem p hq) c hc
    rcases hp : hashPath H fsys p with ⟨r1, r2⟩
    rw [hp] at hbytes
    have hbytes2 : (sumStats r2).bytesHashed ≤ p.size.toNat := hbytes
    simp only [hashPaths, hp]
    cases r1 <;>
      · simp only [List.map_cons, List.sum_cons]
        rw [sumStats_append, Stats.add_bytesHashed]
        try simp only [sumStats, Stats.add_bytesHashed]
        omega

/-! ## Walker lemmas -/

/-- The walker invariants: it never touches `filesOpened` or
`bytesHashed`, its `totalBytes` deltas sum to the sizes of the emitted
entries, it emits at most `files + slack` entries (where `slack` counts
regular entries whose `files` increment happened in the enclosing call),
and every emitted size is non-negative. -/
def WalkOk (w : WalkResult) (slack : Nat) : Prop :=
  (sumStats w.deltas).filesOpened = 0 ∧
  (sumStats w.deltas).bytesHashed = 0 ∧
  (sumStats w.deltas).totalBytes = (w.out.map fun q => q.size.toNat).sum ∧
  w.out.length ≤ (sumStats w.deltas).files + slack ∧
  ∀ q ∈ w.out, 0 ≤ q.size

mutual

theorem walk_facts : ∀ (p : Path) (t : DirTree), WalkOk (walk p t) 0
  | p, .file c se => by
    simp [WalkOk, walk, sumStats, Stats.add, Stats.zero]
  | p, .other => by
    simp [WalkOk, walk, sumStats, Stats.add, Stats.zero]
  | p, .dir true es => by
    simp [WalkOk, walk, sumStats, Stats.add, Stats.zero]
  | p, .dir false es => by
    obtain ⟨r1, r2, r3, r4, r5⟩ := walkEntries_facts p es
    simp only [WalkOk, walk]
    refine ⟨?_, ?_, ?_, ?_, r5⟩
    · simp only [sumStats, Stats.add_filesOpened, r1]
    · simp only [sumStats, Stats.add_bytesHashed, r2]
    · simp only [sumStats, Stats.add_totalBytes, r3]
      omega
    · simp only [sumStats, Stats.add_files]
      have hreg : EntryList.regularCount es ≤
          ({ dirEntries := es.count, files := es.regularCount } : Stats).files :=
        Nat.le_refl _
      simp only [Stats.files] at hreg ⊢
      omega

theorem walkEntries_facts : ∀ (p : Path) (es : EntryList),
    WalkOk (walkEntries p es) es.regularCount
  | p, .nil => by
    simp [WalkOk, walkEntries, sumStats, Stats.zero, EntryList.regularCount]
  | p, .cons n (.file c true) rest => by
    simp [WalkOk, walkEntries, sumStats, Stats.add, Stats.zero]
  | p, .cons n (.file c false) rest => by
    obtain ⟨r1, r2, r3, r4, r5⟩ := walkEntries_facts p rest
    simp only [WalkOk, walkEntries, EntryList.regularCount]
    simp only [Bool.false_eq_true, if_false]
    refine ⟨?_, ?_, ?_, ?_, ?_⟩
    · simp only [sumStats, Stats.add_filesOpened, r1]
    · simp only [sumStats, Stats.add_bytesHashed, r2]
    · simp only [sumStats, Stats.add_totalBytes, r3, List.map_cons, List.sum_cons]
      simp
    · simp only [sumStats, Stats.add_files, List.length_cons]
      omega
    · intro q hq
      rcases List.mem_cons.mp hq with h | h
      · subst h
        simp
      · exact r5 q h
  | p, .cons n (.dir b es') rest => by
    obtain ⟨a1, a2, a3, a4, a5⟩ := walk_facts (joinPath p n) (.dir b es')
    obtain ⟨r1, r2, r3, r4, r5⟩ := walkEntries_facts p rest
    simp only [WalkOk, walkEntries, EntryList.regularCount]
    refine ⟨?_, ?_, ?_, ?_, ?_⟩
    · rw [sumStats_append, Stats.add_filesOpened, a1, r1]
    · rw [sumStats_append, Stats.add_bytesHashed, a2, r2]
    · rw [sumStats_append, Stats.add_totalBytes, a3, r3, List.map_append, List.sum_append]
    · rw [List.length_append, sumStats_append, Stats.add_files]
      omega
    · intro q hq
      rcases List.mem_append.mp hq with h | h
      · exact a5 q h
      · exact r5 q h
  | p, .cons n .other rest => by
    obtain ⟨r1, r2, r3, r4, r5⟩ := walkEntries_facts p rest
    simp only [WalkOk, walkEntries, EntryList.regularCount]
    exact ⟨r1, r2, r3, r4, r5⟩

end

theorem walkAll_facts (roots : List (Path × DirTree)) : WalkOk (walkAll roots) 0 := by
  induction roots with
  | nil => simp [WalkOk, walkAll, sumStats, Stats.zero]
  | cons r rs ih =>
    obtain ⟨i1, i2, i3, i4, i5⟩ := ih
    obtain ⟨a1, a2, a3, a4, a5⟩ := walk_facts r.1 r.2
    simp only [WalkOk, walkAll]
    refine ⟨?_, ?_, ?_, ?_, ?_⟩
    · rw [sumStats_append, Stats.add_filesOpened, a1, i1]
    · rw [sumStats_append, Stats.add_bytesHashed, a2, i2]
    · rw [sumStats_append, Stats.add_totalBytes, a3, i3, List.map_append, List.sum_append]
    · rw [List.length_append, sumStats_append, Stats.add_files]
      omega
    · intro q hq
      rcases List.mem_append.mp hq with h | h
      · exact a5 q h
      · exact i5 q h

/-! ## Aggregator lemmas -/

theorem sortPaths_perm (ps : List Path) : List.Perm (sortPaths ps) ps :=
  List.perm_insertionSort pathLe ps

theorem sortPaths_sorted (ps : List Path) : List.Sorted pathLe (sortPaths ps) :=
  List.sorted_insertionSort pathLe ps

theorem aggregate_mem_elim (t : Int) (l : List PathWithHash) (k : String)
    (ps : List Path) (h : (k, ps) ∈ aggregate t l) :
    ∃ g, g ∈ groupByHash l ∧ t ≤ (g.2.length : Int) ∧
      k = uint128Hex g.1 ∧ ps = sortPaths g.2 := by
  unfold aggregate at h
  obtain ⟨g, hg, hf⟩ := List.mem_filterMap.mp h
  by_cases hc : t ≤ (g.2.length : Int)
  · rw [if_pos hc] at hf
    have he := Option.some.inj hf
    have h1 : uint128Hex g.1 = k := congrArg Prod.fst he
    have h2 : sortPaths g.2 = ps := congrArg Prod.snd he
    exact ⟨g, hg, hc, h1.symm, h2.symm⟩
  · rw [if_neg hc] at hf
    simp at hf

theorem addToGroup_mem (acc : List (Uint128 × List Path)) (h0 : Uint128)
    (qs : List Path) (x : Path) (hmem : (h0, qs) ∈ acc) (hx : x ∈ qs)
    (h : Uint128) (q : Path) :
    ∃ qs2, (h0, qs2) ∈ addToGroup acc h q ∧ x ∈ qs2 := by
  induction acc with
  | nil => simp at hmem
  | cons g rest ih =>
    rcases g with ⟨gh, gps⟩
    simp only [addToGroup]
    rcases List.mem_cons.mp hmem with he | hm
    · have hh : h0 = gh := congrArg Prod.fst he
      have hqs : qs = gps := congrArg Prod.snd he
      by_cases hgh : gh = h
      · rw [if_pos hgh]
        refine ⟨gps ++ [q], ?_, List.mem_append.mpr (Or.inl (hqs ▸ hx))⟩
        rw [hh]
        exact List.mem_cons_self _ _
      · rw [if_neg hgh]
        refine ⟨gps, ?_, hqs ▸ hx⟩
        rw [hh]
        exact List.mem_cons_self _ _
    · by_cases hgh : gh = h
      · rw [if_pos hgh]
        exact ⟨qs, List.mem_cons_of_mem _ hm, hx⟩
      · rw [if_neg hgh]
        obtain ⟨qs2, hq2, hx2⟩ := ih hm
        exact ⟨qs2, List.mem_cons_of_mem _ hq2, hx2⟩

theorem addToGroup_self (acc : List (Uint128 × List Path)) (h : Uint128) (q : Path) :
    ∃ qs2, (h, qs2) ∈ addToGroup acc h q ∧ q ∈ qs2 := by
  induction acc with
  | nil => exact ⟨[q], List.mem_cons_self _ _, List.mem_cons_self _ _⟩
  | cons g rest ih =>
    rcases g with ⟨gh, gps⟩
    simp only [addToGroup]
    by_cases hgh : gh = h
    · subst hgh
      rw [if_pos rfl]
      exact ⟨gps ++ [q], List.mem_cons_self _ _,
        List.mem_append.mpr (Or.inr (List.mem_cons_self _ _))⟩
    · rw [if_neg hgh]
      obtain ⟨qs2, hq2, hx2⟩ := ih
      exact ⟨qs2, List.mem_cons_of_mem _ hq2, hx2⟩

theorem groupByHashGo_preserve (rest : List PathWithHash) :
    ∀ (acc : List (Uint128 × List Path)) (h0 : Uint128) (qs : List Path) (x : Path),
    (h0, qs) ∈ acc → x ∈ qs →
    ∃ qs2, (h0, qs2) ∈ groupByHashGo acc rest ∧ x ∈ qs2 := by
  induction rest with
  | nil => exact fun acc h0 qs x hmem hx => ⟨qs, hmem, hx⟩
  | cons q2 rest2 ih =>
    intro acc h0 qs x hmem hx
    obtain ⟨qs1, h1, hx1⟩ := addToGroup_mem acc h0 qs x hmem hx q2.hash q2.path
    exact ih _ _ _ _ h1 hx1

theorem groupByHash_mem_of_mem (l : List PathWithHash) (q : PathWithHash)
    (hq : q ∈ l) :
    ∃ qs, (q.hash, qs) ∈ groupByHash l ∧ q.path ∈ qs := by
  unfold groupByHash
  suffices hgen : ∀ (acc : List (Uint128 × List Path)),
      ∃ qs, (q.hash, qs) ∈ groupByHashGo acc l ∧ q.path ∈ qs from hgen []
  induction l with
  | nil => simp at hq
  | cons p rest ih =>
    intro acc
    rcases List.mem_cons.mp hq with he | hm
    · subst he
      obtain ⟨qs1, h1, hx1⟩ := addToGroup_self acc q.hash q.path
      exact groupByHashGo_preserve rest _ _ _ _ h1 hx1
    · exact ih hm _

theorem addToGroup_keys (acc : List (Uint128 × List Path)) (h : Uint128) (q : Path) :
    (addToGroup acc h q).map Prod.fst
      = if h ∈ acc.map Prod.fst then acc.map Prod.fst
        else acc.map Prod.fst ++ [h] := by
  induction acc with
  | nil => simp [addToGroup]
  | cons g rest ih =>
    rcases g with ⟨gh, gps⟩
    simp only [addToGroup, List.map_cons, List.mem_cons]
    by_cases hgh : gh = h
    · subst hgh
      rw [if_pos rfl, if_pos (Or.inl rfl)]
      simp
    · rw [if_neg hgh, List.map_cons, ih]
      by_cases hmem : h ∈ rest.map Prod.fst
      · rw [if_pos hmem, if_pos (Or.inr hmem)]
      · rw [if_neg hmem, if_neg (by
          rintro (he | hm)
          · exact hgh he.symm
          · exact hmem hm)]
        simp

theorem groupByHashGo_keys_nodup (l : List PathWithHash) :
    ∀ acc : List (Uint128 × List Path),
    (acc.map Prod.fst).Nodup → ((groupByHashGo acc l).map Prod.fst).Nodup := by
  induction l with
  | nil => exact fun acc h => h
  | cons q rest ih =>
    intro acc hacc
    refine ih _ ?_
    rw [addToGroup_keys]
    by_cases hmem : q.hash ∈ acc.map Prod.fst
    · rw [if_pos hmem]
      exact hacc
    · rw [if_neg hmem]
      have : ((acc.map Prod.fst) ++ [q.hash]).Nodup := by
        rw [List.nodup_append]
        refine ⟨hacc, List.nodup_singleton _, ?_⟩
        intro a ha hb
        rw [List.mem_singleton] at hb
        subst hb
        exact hmem ha
      exact this

theorem groupByHash_keys_nodup (l : List PathWithHash) :
    ((groupByHash l).map Prod.fst).Nodup :=
  groupByHashGo_keys_nodup l [] (by simp)

/-! ## Remaining pipeline lemmas -/

theorem sumStats_cons (d : Stats) (ds : List Stats) :
    sumStats (d :: ds) = d.add (sumStats ds) := rfl

theorem hashPaths_other_components (H : List Nat → Uint128)
    (fsys : Path → Option (List Nat)) (l : List PathWithSize) :
    (sumStats (hashPaths H fsys l).2).files = 0 ∧
    (sumStats (hashPaths H fsys l).2).totalBytes = 0 := by
  induction l with
  | nil => exact ⟨rfl, rfl⟩
  | cons p ps ih =>
    have hone : (sumStats (hashPath H fsys p).2).files = 0 ∧
        (sumStats (hashPath H fsys p).2).totalBytes = 0 := by
      rw [hashPath_deltas_sum]
      split_ifs
      · exact ⟨rfl, rfl⟩
      · cases fsys p.path <;> exact ⟨rfl, rfl⟩
    rcases hp : hashPath H fsys p with ⟨r1, r2⟩
    rw [hp] at hone
    have hone2 : (sumStats r2).files = 0 ∧ (sumStats r2).totalBytes = 0 := hone
    simp only [hashPaths, hp]
    cases r1 <;>
      · constructor
        · rw [sumStats_append, Stats.add_files]
          try simp only [sumStats_cons, Stats.add_files]
          omega
        · rw [sumStats_append, Stats.add_totalBytes]
          try simp only [sumStats_cons, Stats.add_totalBytes]
          omega

/-- The coherence of an immutable tree: every emitted entry whose path
the hasher can open has content whose length is the size reported at
discovery. -/
def sizesMatch (fsys : Path → Option (List Nat)) (l : List PathWithSize) : Bool :=
  l.all fun q =>
    match fsys q.path with
    | none => true
    | some c => (c.length : Int) == q.size

theorem sizesMatch_spec (fsys : Path → Option (List Nat)) (l : List PathWithSize)
    (h : sizesMatch fsys l = true) :
    ∀ p ∈ l, ∀ c, fsys p.path = some c → (c.length : Int) = p.size := by
  intro p hp c hc
  have hall := List.all_eq_true.mp h p hp
  rw [hc] at hall
  exact eq_of_beq hall

theorem findUnique_sublist (l : List PathWithSize) :
    List.Sublist (findUniquePathsWithSize l) l :=
  dedupGo_sublist [] l

theorem findDuplicates_root_pair (H : List Nat → Uint128)
    (fsys : Path → Option (List Nat)) (kg : Bool) (t : Int) (R : Path × DirTree) :
    findDuplicatesModel H fsys kg t [R, R] = findDuplicatesModel H fsys kg t [R] := by
  unfold findDuplicatesModel
  have hw2 : walkAll [R, R]
      = ⟨(walk R.1 R.2).out ++ ((walk R.1 R.2).out ++ []),
         (walk R.1 R.2).deltas ++ ((walk R.1 R.2).deltas ++ [])⟩ := rfl
  have hw1 : walkAll [R]
      = ⟨(walk R.1 R.2).out ++ [], (walk R.1 R.2).deltas ++ []⟩ := rfl
  rw [hw2, hw1]
  simp only [List.append_nil]
  rw [findUnique_self_append]
  have hiff : ∀ hs : List Stats,
      (0 < (sumStats (((walk R.1 R.2).deltas ++ (walk R.1 R.2).deltas) ++ hs)).errors
        ↔ 0 < (sumStats ((walk R.1 R.2).deltas ++ hs)).errors) := by
    intro hs
    rw [sumStats_append, sumStats_append, sumStats_append, Stats.add_errors,
      Stats.add_errors, Stats.add_errors]
    omega
  exact if_congr (and_congr_right fun _ => hiff _) rfl rfl

/-! ## Claim theorems -/

/-- C1: for every key in the result map of `DupFinder.FindDuplicates`, the
associated list of paths has length at least the configured threshold;
groups with fewer than `threshold` members are discarded by the
aggregator. -/
theorem dupfind_c1 (t : Int) (l : List PathWithHash) (k : String) (ps : List Path)
    (h : (k, ps) ∈ aggregate t l) : t ≤ (ps.length : Int) := by
  obtain ⟨g, _, hc, _, hps⟩ := aggregate_mem_elim t l k ps h
  rw [hps]
  have hlen : (sortPaths g.2).length = g.2.length := (sortPaths_perm g.2).length_eq
  rw [hlen]
  exact hc

theorem dupfind_c1_witness :
    (1 : Int) ≤ ((([[97]] : List Path)).length : Int) :=
  dupfind_c1 1 [⟨[97], ⟨0, 0⟩⟩] (uint128Hex ⟨0, 0⟩) [[97]] (by decide)

/-- C2: every key of the result map is a lowercase hexadecimal string of
exactly 32 characters encoding the 128-bit fingerprint big-endian, high
half first, and the paths stored under every key are sorted in
byte-lexicographic order. -/
theorem dupfind_c2 (t : Int) (l : List PathWithHash) (k : String) (ps : List Path)
    (h : (k, ps) ∈ aggregate t l) :
    k.length = 32 ∧ (∀ c ∈ k.data, c ∈ hexChars) ∧ List.Sorted pathLe ps ∧
    ∃ u : Uint128, k = uint128Hex u := by
  obtain ⟨g, _, _, hk, hps⟩ := aggregate_mem_elim t l k ps h
  subst hk
  subst hps
  exact ⟨uint128Hex_length g.1, uint128Hex_chars g.1, sortPaths_sorted g.2, g.1, rfl⟩

theorem dupfind_c2_witness :
    (uint128Hex ⟨0, 0⟩).length = 32 ∧
    (∀ c ∈ (uint128Hex ⟨0, 0⟩).data, c ∈ hexChars) ∧
    List.Sorted pathLe ([[97]] : List Path) ∧
    ∃ u : Uint128, uint128Hex ⟨0, 0⟩ = uint128Hex u :=
  dupfind_c2 1 [⟨[97], ⟨0, 0⟩⟩] (uint128Hex ⟨0, 0⟩) [[97]] (by decide)

/-- C3: for every input stream, size `s`, and prefix, the Size-Filter has
forwarded nothing of size `s` while fewer than `threshold` entries of
size `s` have arrived, and has forwarded exactly all arrived entries of
size `s`, in arrival order, as soon as their count reached `threshold`
(the buffered ones flushed at that point, every later one immediately). -/
theorem dupfind_c3 (t : Int) (l : List PathWithSize) (s : Int) (n : Nat) :
    filterSize s (findPathsWithIdenticalSizes t (l.take n))
      = if t ≤ ((filterSize s (l.take n)).length : Int)
        then filterSize s (l.take n) else [] :=
  findPaths_filterSize t s (l.take n)

/-- C4: with threshold 0 or negative the Size-Filter forwards exactly the
same sequence as with threshold 1, namely every entry immediately in
arrival order. -/
theorem dupfind_c4 (t : Int) (l : List PathWithSize) (ht : t ≤ 0) :
    findPathsWithIdenticalSizes t l = findPathsWithIdenticalSizes 1 l ∧
    findPathsWithIdenticalSizes 1 l = l := by
  unfold findPathsWithIdenticalSizes
  rw [sizeFilterGo_nonpos t ht, sizeFilterGo_one]
  exact ⟨rfl, rfl⟩

theorem dupfind_c4_witness :
    findPathsWithIdenticalSizes (-1) [⟨[97], 3⟩, ⟨[98], 3⟩]
      = findPathsWithIdenticalSizes 1 [⟨[97], 3⟩, ⟨[98], 3⟩] ∧
    findPathsWithIdenticalSizes 1 [⟨[97], 3⟩, ⟨[98], 3⟩]
      = [⟨[97], 3⟩, ⟨[98], 3⟩] :=
  dupfind_c4 (-1) [⟨[97], 3⟩, ⟨[98], 3⟩] (by decide)

/-- C5: the Deduper forwards a (path, size) pair exactly on its first
occurrence and drops every later occurrence, and consequently running
the pipeline with roots `[R, R]` produces the same result as with
`[R]`. -/
theorem dupfind_c5 :
    (∀ (l : List PathWithSize) (x : PathWithSize),
      findUniquePathsWithSize (l ++ [x])
        = findUniquePathsWithSize l ++ if x ∈ l then [] else [x]) ∧
    ∀ (H : List Nat → Uint128) (fsys : Path → Option (List Nat)) (kg : Bool)
      (t : Int) (R : Path × DirTree),
      findDuplicatesModel H fsys kg t [R, R] = findDuplicatesModel H fsys kg t [R] := by
  constructor
  · intro l x
    unfold findUniquePathsWithSize
    rw [dedupGo_append]
    have hsingle : dedupGo (dedupSeenAfter [] l) [x]
        = if x ∈ l then [] else [x] := by
      have hmem : x ∈ dedupSeenAfter [] l ↔ x ∈ l := by
        rw [mem_dedupSeenAfter]
        simp
      simp only [dedupGo]
      rw [if_congr hmem rfl rfl]
    rw [hsingle]
  · exact findDuplicates_root_pair

/-- C6: `hashPath` on a size-0 entry returns the fixed empty-input
fingerprint without opening the file (no statistics delta at all, in
particular `filesOpened` is not incremented), and every size-0 entry
that reaches the aggregator lands in the single group keyed by the
empty fingerprint. -/
theorem dupfind_c6 (H : List Nat → Uint128) (fsys : Path → Option (List Nat))
    (p : PathWithSize) (l : List PathWithSize) (hp : p.size = 0) (hmem : p ∈ l) :
    hashPath H fsys p = (.ok (emptyHash H), []) ∧
    (⟨p.path, emptyHash H⟩ : PathWithHash) ∈ (hashPaths H fsys l).1 ∧
    (∃ qs, (emptyHash H, qs) ∈ groupByHash (hashPaths H fsys l).1 ∧ p.path ∈ qs) ∧
    ((groupByHash (hashPaths H fsys l).1).map Prod.fst).Nodup := by
  have h1 : hashPath H fsys p = (.ok (emptyHash H), []) := by
    unfold hashPath
    rw [if_pos hp]
  have h2 : (⟨p.path, emptyHash H⟩ : PathWithHash) ∈ (hashPaths H fsys l).1 := by
    induction l with
    | nil => simp at hmem
    | cons q qs ih =>
      rcases List.mem_cons.mp hmem with he | hm
      · subst he
        simp only [hashPaths, h1]
        exact List.mem_cons_self _ _
      · rcases hq : hashPath H fsys q with ⟨r1, r2⟩
        simp only [hashPaths, hq]
        cases r1 with
        | error e => exact ih hm
        | ok hh => exact List.mem_cons_of_mem _ (ih hm)
  have h3 := groupByHash_mem_of_mem (hashPaths H fsys l).1 ⟨p.path, emptyHash H⟩ h2
  exact ⟨h1, h2, h3, groupByHash_keys_nodup _⟩

theorem dupfind_c6_witness :
    hashPath (fun _ => ⟨0, 0⟩) (fun _ => none) ⟨[97], 0⟩
      = (.ok (emptyHash fun _ => ⟨0, 0⟩), []) ∧
    (⟨[97], emptyHash fun _ => ⟨0, 0⟩⟩ : PathWithHash)
      ∈ (hashPaths (fun _ => ⟨0, 0⟩) (fun _ => none) [⟨[97], 0⟩]).1 ∧
    (∃ qs, (emptyHash fun _ => ⟨0, 0⟩, qs)
        ∈ groupByHash (hashPaths (fun _ => ⟨0, 0⟩) (fun _ => none) [⟨[97], 0⟩]).1 ∧
      [97] ∈ qs) ∧
    ((groupByHash (hashPaths (fun _ => ⟨0, 0⟩) (fun _ => none) [⟨[97], 0⟩]).1).map
      Prod.fst).Nodup :=
  dupfind_c6 (fun _ => ⟨0, 0⟩) (fun _ => none) ⟨[97], 0⟩ [⟨[97], 0⟩] rfl
    (List.mem_cons_self _ _)

/-- C7: the hasher emits exactly one `pathWithHash` for every entry it
hashes successfully, and for every entry whose open or read fails it
emits nothing and sends exactly one error: the outputs are the
successful entries in order, the error count equals the number of
failed entries, and together they account for every entry. -/
theorem dupfind_c7 (H : List Nat → Uint128) (fsys : Path → Option (List Nat))
    (l : List PathWithSize) :
    (hashPaths H fsys l).1 = (l.filterMap fun p =>
        match (hashPath H fsys p).1 with
        | .ok h => some ⟨p.path, h⟩
        | .error _ => none) ∧
    (sumStats (hashPaths H fsys l).2).errors = (l.filter (hashFailed H fsys)).length ∧
    (hashPaths H fsys l).1.length + (l.filter (hashFailed H fsys)).length = l.length :=
  hashPaths_characterization H fsys l

/-- C8 counterexample: in a directory whose first entry has a Stat
(`Info`) error and whose second entry is a readable regular file, the
walker sends the error but emits nothing at all: the second entry of
the same parent directory does not proceed, contradicting the claim. -/
theorem dupfind_c8_counterexample :
    (sumStats (walkEntries [] (EntryList.cons [97] (DirTree.file [1] true)
        (EntryList.cons [98] (DirTree.file [2] false) EntryList.nil))).deltas).errors
      = 1 ∧
    (walkEntries [] (EntryList.cons [97] (DirTree.file [1] true)
        (EntryList.cons [98] (DirTree.file [2] false) EntryList.nil))).out = [] := by
  constructor
  · rfl
  · rfl

/-- C8 (amended): when a per-entry Stat error occurs, the walker sends
the error to the error channel and returns from that directory,
abandoning the remaining entries of the same parent directory; a child
directory whose `ReadDir` fails sends its error and the other entries
of the parent directory still proceed. -/
theorem dupfind_c8 (p n : Path) (c : List Nat) (rest : EntryList) (es : EntryList) :
    walkEntries p (.cons n (.file c true) rest) = ⟨[], [{ errors := 1 }]⟩ ∧
    (walkEntries p (.cons n (.dir true es) rest)).out = (walkEntries p rest).out ∧
    (sumStats (walkEntries p (.cons n (.dir true es) rest)).deltas).errors
      = 1 + (sumStats (walkEntries p rest).deltas).errors := by
  refine ⟨rfl, rfl, ?_⟩
  have hd : (walkEntries p (.cons n (.dir true es) rest)).deltas
      = [{ errors := 1 }] ++ (walkEntries p rest).deltas := rfl
  rw [hd, sumStats_append, Stats.add_errors]
  rfl

/-- C9: all statistics counters are non-decreasing along the run's trace
of atomic increments, and at the end of a run on an immutable tree
`filesOpened ≤ files` and `bytesHashed ≤ totalBytes`. -/
theorem dupfind_c9 (H : List Nat → Uint128) (fsys : Path → Option (List Nat))
    (t : Int) (roots : List (Path × DirTree))
    (hgood : sizesMatch fsys (walkAll roots).out = true) :
    (∀ i j, i ≤ j →
      (statsAt (runDeltas H fsys t roots) i).le (statsAt (runDeltas H fsys t roots) j)) ∧
    (sumStats (runDeltas H fsys t roots)).filesOpened
      ≤ (sumStats (runDeltas H fsys t roots)).files ∧
    (sumStats (runDeltas H fsys t roots)).bytesHashed
      ≤ (sumStats (runDeltas H fsys t roots)).totalBytes := by
  obtain ⟨w1, w2, w3, w4, w5⟩ := walkAll_facts roots
  have hrun : runDeltas H fsys t roots
      = (walkAll roots).deltas
        ++ { uniqueSizes := uniqueSizeCount (findUniquePathsWithSize (walkAll roots).out) }
          :: (hashPaths H fsys (findPathsWithIdenticalSizes t
              (findUniquePathsWithSize (walkAll roots).out))).2 := rfl
  have hsf_sub : List.Subperm
      (findPathsWithIdenticalSizes t (findUniquePathsWithSize (walkAll roots).out))
      (findUniquePathsWithSize (walkAll roots).out) :=
    findPaths_subperm t _
  have hu_sub : List.Sublist (findUniquePathsWithSize (walkAll roots).out)
      (walkAll roots).out := findUnique_sublist _
  have hfo := hashPaths_filesOpened_le H fsys
    (findPathsWithIdenticalSizes t (findUniquePathsWithSize (walkAll roots).out))
  have hbh := hashPaths_bytesHashed_le H fsys
    (findPathsWithIdenticalSizes t (findUniquePathsWithSize (walkAll roots).out))
    (fun q hq c hc => sizesMatch_spec fsys (walkAll roots).out hgood q
      (hu_sub.subset (hsf_sub.subset hq)) c hc)
  obtain ⟨hz1, hz2⟩ := hashPaths_other_components H fsys
    (findPathsWithIdenticalSizes t (findUniquePathsWithSize (walkAll roots).out))
  have hlen1 : (findPathsWithIdenticalSizes t
      (findUniquePathsWithSize (walkAll roots).out)).length
      ≤ (findUniquePathsWithSize (walkAll roots).out).length := hsf_sub.length_le
  have hlen2 : (findUniquePathsWithSize (walkAll roots).out).length
      ≤ (walkAll roots).out.length := hu_sub.length_le
  have hsum1 : ((findPathsWithIdenticalSizes t
        (findUniquePathsWithSize (walkAll roots).out)).map fun q => q.size.toNat).sum
      ≤ ((findUniquePathsWithSize (walkAll roots).out).map fun q => q.size.toNat).sum :=
    subperm_map_sum_le _ _ _ hsf_sub
  have hsum2 : ((findUniquePathsWithSize (walkAll roots).out).map
        fun q => q.size.toNat).sum
      ≤ ((walkAll roots).out.map fun q => q.size.toNat).sum :=
    sublist_map_sum_le _ _ _ hu_sub
  refine ⟨fun i j hij => statsAt_mono _ i j hij, ?_, ?_⟩
  · rw [hrun, sumStats_append, Stats.add_filesOpened, Stats.add_files,
      sumStats_cons, Stats.add_filesOpened, Stats.add_files, w1]
    simp only
    omega
  · rw [hrun, sumStats_append, Stats.add_bytesHashed, Stats.add_totalBytes,
      sumStats_cons, Stats.add_bytesHashed, Stats.add_totalBytes, w2, w3]
    simp only
    omega

/-- C10: with an empty list of roots, `FindDuplicates` returns the empty
map and no error, in both fail-fast and keep-going mode, regardless of
the filesystem. -/
theorem dupfind_c10 (H : List Nat → Uint128) (fsys : Path → Option (List Nat))
    (kg : Bool) (t : Int) :
    findDuplicatesModel H fsys kg t [] = .ok [] := by
  unfold findDuplicatesModel
  have hz : (sumStats ((walkAll []).deltas
      ++ (hashPaths H fsys (findPathsWithIdenticalSizes t
          (findUniquePathsWithSize (walkAll []).out))).2)).errors = 0 := rfl
  rw [if_neg (by
    rintro ⟨_, hpos⟩
    rw [hz] at hpos
    exact Nat.lt_irrefl 0 hpos)]
  rfl

/-- A two-file immutable tree used to instantiate the statistics claim. -/
def exampleRoots : List (Path × DirTree) :=
  [([], .dir false (.cons [97] (.file [5] false)
    (.cons [98] (.file [7] false) .nil)))]

/-- The contents of `exampleRoots` as seen by the hasher. -/
def exampleFsys : Path → Option (List Nat) := fun p =>
  if p = [47, 97] then some [5] else if p = [47, 98] then some [7] else none

theorem dupfind_c9_witness :
    (statsAt (runDeltas (fun _ => ⟨0, 0⟩) exampleFsys 2 exampleRoots) 0).le
      (statsAt (runDeltas (fun _ => ⟨0, 0⟩) exampleFsys 2 exampleRoots) 1) ∧
    (sumStats (runDeltas (fun _ => ⟨0, 0⟩) exampleFsys 2 exampleRoots)).filesOpened
      ≤ (sumStats (runDeltas (fun _ => ⟨0, 0⟩) exampleFsys 2 exampleRoots)).files ∧
    (sumStats (runDeltas (fun _ => ⟨0, 0⟩) exampleFsys 2 exampleRoots)).bytesHashed
      ≤ (sumStats (runDeltas (fun _ => ⟨0, 0⟩) exampleFsys 2 exampleRoots)).totalBytes := by
  have h := dupfind_c9 (fun _ => ⟨0, 0⟩) exampleFsys 2 exampleRoots (by decide)
  exact ⟨h.1 0 1 (by decide), h.2.1, h.2.2⟩

end DupFind
